import Mathlib

/-!
Verification development for the remote-vault-sync repository.

The TypeScript source is shallowly embedded: file and object contents are
byte strings modelled as `List Char`, the S3 object store is an association
list from keys to contents, and each source function is translated into an
executable Lean definition.  Machinery that the source delegates to the
external `git` binary (the opaque history-graph capability set of spec §6)
is modelled from the spec's description of those capabilities.
-/

namespace VaultSync

/-- Byte/character strings of the embedding (JS strings). -/
abbrev Str := List Char

/-- Split a string at each newline character, JS `content.split("\n")`
semantics: `splitOnNl s` always returns at least one chunk, and
`splitOnNl (l ++ '\n' :: rest) = l :: splitOnNl rest` when `l` has no
newline. -/
def splitOnNl : Str → List Str
  | [] => [[]]
  | c :: rest =>
    if c = '\n' then [] :: splitOnNl rest
    else
      match splitOnNl rest with
      | [] => [[c]]
      | l :: ls => (c :: l) :: ls

/-- ECMAScript regex line terminators: the characters `^`/`$` anchor
around in multiline mode and that `.` refuses to match — LF, CR, LINE
SEPARATOR and PARAGRAPH SEPARATOR. -/
def isJsNlChar (c : Char) : Bool :=
  c = '\n' || c = '\r' || c = Char.ofNat 0x2028 || c = Char.ofNat 0x2029

/-- The lines an ECMAScript `/^…$/m` regex sees: the string split at
every line terminator (LF, CR, LS, PS), so that `^` matches exactly at
each chunk's start and `$` at each chunk's end. -/
def splitLinesJs : Str → List Str
  | [] => [[]]
  | c :: rest =>
    if isJsNlChar c then [] :: splitLinesJs rest
    else
      match splitLinesJs rest with
      | [] => [[c]]
      | l :: ls => (c :: l) :: ls

/-- Join lines back, each line terminated by a newline (the layout of the
multi-line records this repository writes). -/
def joinLinesNl (ls : List Str) : Str :=
  (ls.map (fun l => l ++ ['\n'])).flatten

/-- Numeric value of a decimal digit character (JS `parseInt` on a single
digit). -/
def digitVal (c : Char) : Nat := c.toNat - 48

/-- Value of a string of decimal digits, most significant first
(JS `parseInt(s, 10)` on an all-digit string). -/
def decVal (s : Str) : Nat := s.foldl (fun a c => 10 * a + digitVal c) 0

/-- The decimal digit character for `d < 10`. -/
def digitChar10 (d : Nat) : Char :=
  match d with
  | 0 => '0' | 1 => '1' | 2 => '2' | 3 => '3' | 4 => '4'
  | 5 => '5' | 6 => '6' | 7 => '7' | 8 => '8' | _ => '9'

/-- Digit-by-digit decimal rendering; the first argument bounds the
recursion depth (any bound above the value itself is enough, as each
step divides the value by ten). -/
def toDecAux : Nat → Nat → Str
  | 0, _ => []
  | fuel + 1, n =>
    if n < 10 then [digitChar10 n]
    else toDecAux fuel (n / 10) ++ [digitChar10 (n % 10)]

/-- Decimal rendering of a natural number (JS number-to-string
interpolation in template literals). -/
def toDec (n : Nat) : Str := toDecAux (n + 1) n

/-! ## LFS pointer records (src/unnamed/part_000, `s3-lfs.ts`) -/

/-- `LFS_VERSION` constant of the source. -/
def lfsVersionStr : Str := "https://git-lfs.github.com/spec/v1".toList

/-- The leading token `version ${LFS_VERSION}` that `parsePointer` requires
as a prefix of the content. -/
def versionToken : Str := "version ".toList ++ lfsVersionStr

/-- The anchored text before the hash in the `oid` line regex
`^oid sha256:([a-f0-9]{64})$`. -/
def oidPre : Str := "oid sha256:".toList

/-- The anchored text before the digits in the `size` line regex
`^size (\d+)$`. -/
def sizePre : Str := "size ".toList

/-- Character class `[a-f0-9]` of the oid regex. -/
def isLowerHex (c : Char) : Bool := ('a' ≤ c && c ≤ 'f') || ('0' ≤ c && c ≤ '9')

/-- A 64-character lowercase-hex string (the shape of a sha256 hex
digest). -/
def isHex64 (s : Str) : Bool := s.length = 64 && s.all isLowerHex

/-- Parsed pointer record: content hash and byte size. -/
structure Pointer where
  oid : Str
  size : Nat
deriving DecidableEq, Repr

/-- `formatPointer(oid, size)` from the source: the three-line record with
a trailing newline. -/
def formatPointer (oid : Str) (size : Nat) : Str :=
  versionToken ++ '\n' :: (oidPre ++ oid) ++ '\n' :: (sizePre ++ toDec size) ++ ['\n']

/-- Match of one whole line against `^oid sha256:([a-f0-9]{64})$`,
returning the captured hash. -/
def oidLine? (l : Str) : Option Str :=
  if oidPre.isPrefixOf l then
    let h := l.drop oidPre.length
    if isHex64 h then some h else none
  else none

/-- Match of one whole line against `^size (\d+)$`, returning the parsed
size. -/
def sizeLine? (l : Str) : Option Nat :=
  if sizePre.isPrefixOf l then
    let d := l.drop sizePre.length
    if !d.isEmpty && d.all Char.isDigit then some (decVal d) else none
  else none

/-- `parsePointer(content)` from the source: require the version token as
a *prefix* of the whole content, then take the first line (anywhere in
the content, JS multiline regex — lines delimited by any ECMAScript line
terminator) matching the oid pattern and the first line matching the
size pattern. -/
def parsePointer (content : Str) : Option Pointer :=
  if versionToken.isPrefixOf content then
    match (splitLinesJs content).findSome? oidLine?,
        (splitLinesJs content).findSome? sizeLine? with
    | some oid, some size => some ⟨oid, size⟩
    | _, _ => none
  else none

/-! ## Object store model (src/src/utils/s3.ts) -/

/-- First-match association lookup; the head of the list is the most
recent `put`. -/
def alookup {α : Type} : List (Str × α) → Str → Option α
  | [], _ => none
  | (k, v) :: rest, k' => if k = k' then some v else alookup rest k'

/-- The S3 bucket contents: keys mapped to object bytes. -/
abbrev Store := List (Str × Str)

/-- `put` of an in-memory value: overwrites the key (the newest binding
shadows older ones). -/
def putStore (st : Store) (k v : Str) : Store := (k, v) :: st

/-- `delete` of a single key. -/
def delStore (st : Store) (k : Str) : Store :=
  st.filter (fun p => decide (p.1 ≠ k))

/-- `get` / `getStream`: fails (`none`) when the key is absent. -/
def getStore (st : Store) (k : Str) : Option Str := alookup st k

/-- `S3.copy(src, dest)` seen through the store: the destination receives
the source object's bytes; a missing source fails.  (The single-shot
vs. multipart decision below does not change the resulting mapping.) -/
def copyStore (st : Store) (src dest : Str) : Option Store :=
  (getStore st src).map (fun v => putStore st dest v)

/-! ## Large-object offload engine (src/unnamed/part_000, `S3LFS`) -/

/-- `S3LFS.key(oid)`: the content-addressed key `lfs/${oid}`. -/
def lfsKey (oid : Str) : Str := "lfs/".toList ++ oid

/-- `S3LFS.clean(path)`: hash the file while uploading it to a temporary
key, server-side copy to the content-addressed key, delete the temporary
key, and overwrite the file with a pointer record carrying the hash and
the original byte size.  Returns the new file content and store; `none`
on a failed step. -/
def clean (hash : Str → Str) (tempKey : Str) (file : Str) (st : Store) :
    Option (Str × Store) :=
  let oid := hash file
  let size := file.length
  let st1 := putStore st tempKey file
  (copyStore st1 tempKey (lfsKey oid)).map (fun st2 =>
    (formatPointer oid size, delStore st2 tempKey))

/-- `S3LFS.smudge(path)`: parse the file as a pointer; on parse failure
the file is left untouched (not a pointer ⇒ already materialized); on
success stream the content-addressed object over the file (`none` when
the object is absent, as `getStream` throws). -/
def smudge (st : Store) (file : Str) : Option Str :=
  match parsePointer file with
  | none => some file
  | some p => getStore st (lfsKey p.oid)

/-- `clean` followed by `smudge` on the same file. -/
def cleanThenSmudge (hash : Str → Str) (tempKey : Str) (file : Str) (st : Store) :
    Option Str :=
  (clean hash tempKey file st).bind (fun r => smudge r.2 r.1)

/-! ## `S3.head` / `S3.exists` (src/src/utils/s3.ts lines 104–115) -/

/-- The ways an underlying `HeadObjectCommand` send can fail: absence of
the key is only one of them. -/
inductive S3Err
  | notFound
  | network
  | authDenied
  | other (code : Nat)
deriving DecidableEq, Repr

/-- A successful `HeadObjectCommand` response (`ContentLength` and
`LastModified` are optional in the SDK response). -/
structure HeadResp where
  contentLength : Option Nat
  lastModified : Option Nat
deriving DecidableEq, Repr

/-- Object metadata returned by `head`; `mtime` is a timestamp. -/
structure HeadMeta where
  size : Nat
  mtime : Nat
deriving DecidableEq, Repr

/-- `S3.head(key)`: the entire send is wrapped in try/catch and *every*
caught error becomes `null`; on success missing fields default to `0`
and `new Date()` (the `now` argument). -/
def headM (resp : Except S3Err HeadResp) (now : Nat) : Option HeadMeta :=
  match resp with
  | .ok r => some ⟨r.contentLength.getD 0, r.lastModified.getD now⟩
  | .error _ => none

/-- `S3.exists(key)`: `(await head(key)) !== null`. -/
def existsM (resp : Except S3Err HeadResp) (now : Nat) : Bool :=
  (headM resp now).isSome

/-! ## `S3.copy` / `S3.multipartCopy` (src/src/utils/s3.ts lines 117–160) -/

/-- `5 * 1024 * 1024 * 1024` — the size compared against in `copy`. -/
def copyThreshold : Nat := 5 * 1024 * 1024 * 1024

/-- `1024 * 1024 * 1024` — the 1 GiB part size of `multipartCopy`. -/
def copyPartSize : Nat := 1024 * 1024 * 1024

/-- `const copySize = size ?? (await this.head(src))?.size ?? 0`. -/
def effectiveCopySize (sizeArg : Option Nat) (headSize : Option Nat) : Nat :=
  sizeArg.getD (headSize.getD 0)

/-- The branch `copySize > 5 * 1024 * 1024 * 1024` of `copy`: `true`
selects `multipartCopy`, `false` the single `CopyObjectCommand`. -/
def copyUsesMultipart (copySize : Nat) : Bool :=
  decide (copyThreshold < copySize)

/-- The part loop of `multipartCopy`:
`for (let i = 0, partNum = 1; i < size; i += partSize, partNum++)` with
byte range `bytes=${i}-${min (i + partSize - 1) (size - 1)}`.  Each entry
is `(partNumber, firstByte, lastByte)`.  The loop advances `i` by
`copyPartSize` each iteration, so it runs at most `size / copyPartSize + 1`
times; recursion is on that iteration bound (`fuel`), and
`multipartRanges_bytes_flatten` below certifies the bound never truncates
the loop. -/
def rangesFromFuel : Nat → Nat → Nat → Nat → List (Nat × Nat × Nat)
  | 0, _, _, _ => []
  | fuel + 1, size, i, partNum =>
    if i < size then
      (partNum, i, min (i + copyPartSize - 1) (size - 1)) ::
        rangesFromFuel fuel size (i + copyPartSize) (partNum + 1)
    else []

/-- All part ranges issued by `multipartCopy` for a given size. -/
def multipartRanges (size : Nat) : List (Nat × Nat × Nat) :=
  rangesFromFuel (size / copyPartSize + 1) size 0 1

/-- The byte positions covered by one part range. -/
def rangeBytes (r : Nat × Nat × Nat) : List Nat :=
  List.range' r.2.1 (r.2.2 + 1 - r.2.1)

/-- The `parts` list sent in `CompleteMultipartUploadCommand`: collected
in loop order, one `{ETag, PartNumber}` entry per part whose copy
response carried an ETag (`if (CopyPartResult?.ETag)`). -/
def multipartCompletionParts (size : Nat) (etagOf : Nat → Option Str) :
    List (Str × Nat) :=
  (multipartRanges size).filterMap
    (fun r => (etagOf r.1).map (fun e => (e, r.1)))

/-! ## `paginate` and `S3.list` (src/src/utils/paginate.ts, s3.ts 83–102) -/

/-- One response page as consumed by `paginate`: the items the page
yields (possibly `undefined`, defaulted with `?? []`) and the
continuation token. -/
structure PageResp (α : Type) where
  items : Option (List α)
  next : Option Str

/-- The `while (true)` loop of `paginate`, fed with the finite sequence
of responses the store returns to the successive requests: concatenate
each page's items and stop at the first absent continuation token. -/
def paginateM {α : Type} : List (PageResp α) → List α
  | [] => []
  | p :: rest =>
    p.items.getD [] ++
      (match p.next with
       | some _ => paginateM rest
       | none => [])

/-- Well-formedness of a response chain: at least one page, every page
except the last carries a continuation token, the last does not. -/
def chainWF {α : Type} : List (PageResp α) → Bool
  | [] => false
  | [p] => p.next.isNone
  | p :: rest => p.next.isSome && chainWF rest

/-- One `ListObjectsV2` response: `Contents`, `CommonPrefixes` (either
possibly absent, defaulted with `?? []` in the source), and
`NextContinuationToken`.  Objects and common-prefix entries are kept
abstract. -/
structure ListResp (ob pf : Type) where
  contents : Option (List ob)
  commonPfx : Option (List pf)
  next : Option Str

/-- The page of grouped results `S3.list` builds for `paginate`:
`[{objects: res.Contents ?? [], prefixes: res.CommonPrefixes ?? []}]`. -/
def listPage {ob pf : Type} (r : ListResp ob pf) : PageResp (List ob × List pf) :=
  ⟨some [(r.contents.getD [], r.commonPfx.getD [])], r.next⟩

/-- `S3.list(prefix, delimiter?)` over a response chain: run `paginate`,
then flatten the objects and the common prefixes in page order. -/
def listM {ob pf : Type} (pages : List (ListResp ob pf)) : List ob × List pf :=
  let results := paginateM (pages.map listPage)
  ((results.map Prod.fst).flatten, (results.map Prod.snd).flatten)

/-- The hypothetical single-page listing holding the same total objects
and common prefixes. -/
def singlePageOf {ob pf : Type} (pages : List (ListResp ob pf)) : ListResp ob pf :=
  ⟨some ((pages.map (fun r => r.contents.getD [])).flatten),
   some ((pages.map (fun r => r.commonPfx.getD [])).flatten),
   none⟩

/-! ## Remote head resolution (src/src/main.tsx `getRemoteHead`) -/

/-- ASCII whitespace stripped by JS `String.prototype.trim`. -/
def isTrimWs (c : Char) : Bool :=
  c = ' ' || c = '\t' || c = '\n' || c = '\r' ||
  c = Char.ofNat 11 || c = Char.ofNat 12

/-- JS `s.trim()`. -/
def trimWs (s : Str) : Str :=
  ((s.dropWhile isTrimWs).reverse.dropWhile isTrimWs).reverse

/-- `getRemoteHead()`: read `.git/HEAD` from the remote store; if the
trimmed content starts with `ref: `, dereference through
`.git/${ref}`; any read failure is caught and becomes `null`. -/
def getRemoteHeadM (remote : Store) : Option Str :=
  match getStore remote ".git/HEAD".toList with
  | none => none
  | some content =>
    let t := trimWs content
    if "ref: ".toList.isPrefixOf t then
      (getStore remote (".git/".toList ++ t.drop 5)).map trimWs
    else some t

/-! ## Sync orchestrator: Push / Pull / Restore (src/src/main.tsx) -/

/-- `GitStatus` as returned by `git.status()`. -/
structure GitStatusM where
  staged : List Str
  modified : List Str
  untracked : List Str
  deleted : List Str

/-- The truthiness test
`status.staged.length || status.modified.length || status.untracked.length || status.deleted.length`. -/
def hasChangesM (st : GitStatusM) : Bool :=
  !st.staged.isEmpty || !st.modified.isEmpty ||
  !st.untracked.isEmpty || !st.deleted.isEmpty

/-- Observable steps of one `push()` call. -/
inductive PushA
  | noticeNotConnected
  | prepRaised
  | noticeUpToDate
  | offload
  | commit
  | fetchMerge
  | conflictModal
  | mirrorUp
  | noticePushed
  | noticeFailed
deriving DecidableEq, Repr

/-- Inputs one `push()` call reads from its collaborators. -/
structure PushEnv where
  /-- `this.s3fs && this.git && this.s3lfs` are non-null. -/
  connected : Bool
  /-- result of `git.status()`. -/
  status : GitStatusM
  /-- `git.rev("HEAD")` before committing. -/
  localHead : Str
  /-- `getRemoteHead()`. -/
  remoteHead : Option Str
  /-- `git.rev("HEAD")` after the commit, when there were changes. -/
  commitHead : Str
  /-- whether `git merge-base --is-ancestor a b` exits 0. -/
  isAncestor : Str → Str → Bool
  /-- whether the merge attempted by `pullAndMerge` leaves conflicts
  (so `pendingMerge` is set and the modal opens). -/
  mergeConflicts : Bool
  /-- a throw in the pre-lock section (`status()` / `rev` calls). -/
  prepFails : Bool
  /-- a throw inside the locked `try` body. -/
  bodyFails : Bool

/-- The head `push()` compares against the remote after the optional
commit. -/
def pushNewHead (e : PushEnv) : Str :=
  if hasChangesM e.status then e.commitHead else e.localHead

/-- `push()` from src/src/main.tsx lines 261–326, as final-lock-state
plus the emitted step trace.  `this.locked` is checked first and a locked
call returns with no step at all; the flag is taken after the up-to-date
short-circuit and released in `finally` on every path out of the `try`
body (failure, conflict-modal suspension, completion). -/
def pushModel (locked : Bool) (e : PushEnv) : Bool × List PushA :=
  if locked then (locked, [])
  else if e.connected = false then (locked, [.noticeNotConnected])
  else if e.prepFails = true then (locked, [.prepRaised])
  else if hasChangesM e.status = false ∧ e.remoteHead = some e.localHead then
    (locked, [.noticeUpToDate])
  else if e.bodyFails = true then (false, [.noticeFailed])
  else
    let pre : List PushA := if hasChangesM e.status then [.offload, .commit] else []
    let newHead := pushNewHead e
    match e.remoteHead with
    | some r =>
      if r ≠ [] ∧ r ≠ newHead then
        if e.isAncestor r newHead then (false, pre ++ [.mirrorUp, .noticePushed])
        else if e.mergeConflicts then (false, pre ++ [.fetchMerge, .conflictModal])
        else (false, pre ++ [.fetchMerge, .mirrorUp, .noticePushed])
      else (false, pre ++ [.mirrorUp, .noticePushed])
    | none => (false, pre ++ [.mirrorUp, .noticePushed])

/-- Observable steps of one `pull()` call. -/
inductive PullA
  | noticeNotConnected
  | prepRaised
  | noticeUpToDate
  | fetchRemote
  | merge
  | smudgeFiles
  | noticePulled
  | noticeFailed
deriving DecidableEq, Repr

/-- Inputs one `pull()` call reads. -/
structure PullEnv where
  connected : Bool
  localHead : Str
  remoteHead : Option Str
  prepFails : Bool
  bodyFails : Bool

/-- `pull()` from src/src/main.tsx lines 328–373. -/
def pullModel (locked : Bool) (e : PullEnv) : Bool × List PullA :=
  if locked then (locked, [])
  else if e.connected = false then (locked, [.noticeNotConnected])
  else if e.prepFails = true then (locked, [.prepRaised])
  else if e.remoteHead = some e.localHead then (locked, [.noticeUpToDate])
  else if e.bodyFails = true then (false, [.noticeFailed])
  else (false, [.fetchRemote, .merge, .smudgeFiles, .noticePulled])

/-- Observable steps of one `restore()` call. -/
inductive RestoreA
  | noticeNotConnected
  | gitRestore
  | smudgeFiles
  | noticeRestored
  | noticeFailed
deriving DecidableEq, Repr

/-- Inputs one `restore()` call reads. -/
structure RestoreEnv where
  connected : Bool
  /-- the user's answer to the confirmation modal. -/
  confirmed : Bool
  bodyFails : Bool

/-- `restore()` from src/src/main.tsx lines 375–419: locked check, then
connection check, then the confirmation modal; only a confirmed call
takes the flag. -/
def restoreModel (locked : Bool) (e : RestoreEnv) : Bool × List RestoreA :=
  if locked then (locked, [])
  else if e.connected = false then (locked, [.noticeNotConnected])
  else if e.confirmed = false then (locked, [])
  else if e.bodyFails = true then (false, [.noticeFailed])
  else (false, [.gitRestore, .smudgeFiles, .noticeRestored])

/-! ## Merge cancellation (src/src/main.tsx `cancelMerge`) -/

/-- A worktree: relative paths mapped to file contents. -/
abbrev Tree := List (Str × Str)

/-- The local history-graph repository as the orchestrator observes it:
commit identifiers with their checked-out trees, the current head, the
working tree, and whether a (conflicted) merge is in progress. -/
structure RepoState where
  commits : List (Str × Tree)
  head : Str
  worktree : Tree
  merging : Bool

/-- The tree a `checkout` of the given identifier produces. -/
def checkoutOf (s : RepoState) (r : Str) : Option Tree :=
  alookup s.commits r

/-- Modelled from the spec: `merge-abort` of the opaque history-graph
capability set (spec §6).  During a conflicted merge the head still
names the pre-merge commit; aborting clears the merge state and restores
the working tree to the head's checkout; it fails when no merge is in
progress. -/
def mergeAbortM (s : RepoState) : Option RepoState :=
  if s.merging then
    (checkoutOf s s.head).map (fun t => { s with worktree := t, merging := false })
  else none

/-- Modelled from the spec: `reset-hard(ref)` of the opaque history-graph
capability set (spec §6): move the head to `ref` and check out its
tree. -/
def resetHardM (s : RepoState) (r : Str) : Option RepoState :=
  (checkoutOf s r).map (fun t =>
    { s with head := r, worktree := t, merging := false })

/-- `smudge` of one file's content during `smudgeFiles`. -/
def smudgeContentM (store : Store) (c : Str) : Option Str :=
  match parsePointer c with
  | none => some c
  | some p => getStore store (lfsKey p.oid)

/-- `smudgeFiles(root, patterns)` over a worktree: smudge each file whose
path matches the glob patterns (`pats`), sequentially; a missing
offloaded object fails the whole run. -/
def smudgeTreeM (store : Store) (pats : Str → Bool) : Tree → Option Tree
  | [] => some []
  | (p, c) :: rest =>
    (if pats p then smudgeContentM store c else some c).bind (fun c1 =>
      (smudgeTreeM store pats rest).map (fun r => (p, c1) :: r))

/-- `cancelMerge(preHead)` from src/src/main.tsx lines 703–726: a guard
on `pendingMerge`, then `git merge --abort`, `git reset --hard preHead`,
and `smudgeFiles` over the reverted tree; a failing step is caught and
reported (`none`). -/
def cancelMergeM (s : RepoState) (store : Store) (pats : Str → Bool)
    (preHead : Str) (pending : Bool) : Option RepoState :=
  if pending = false then some s
  else
    (mergeAbortM s).bind (fun s1 =>
      (resetHardM s1 preHead).bind (fun s2 =>
        (smudgeTreeM store pats s2.worktree).map (fun wt =>
          { s2 with worktree := wt })))

/-! ## Conflict-marker stripping (src/src/main.tsx `stripConflictMarkers`) -/

/-- The line `<<<<<<< HEAD`. -/
def marker1 : Str := "<<<<<<< HEAD".toList

/-- The line `=======`. -/
def marker2 : Str := "=======".toList

/-- The anchored text `>>>>>>> ` opening the third marker line. -/
def marker3Pre : Str := ">>>>>>> ".toList

/-- Match of `/^<<<<<<< HEAD\n/` at the current position, returning the
number of characters consumed. -/
def matchM1 (s : Str) : Option Nat :=
  if (marker1 ++ ['\n']).isPrefixOf s then some (marker1.length + 1) else none

/-- Match of `/^=======\n/` at the current position. -/
def matchM2 (s : Str) : Option Nat :=
  if (marker2 ++ ['\n']).isPrefixOf s then some (marker2.length + 1) else none

/-- Match of `/^>>>>>>> .*\n/` at the current position: the greedy `.*`
takes the maximal run of non-line-terminator characters, after which a
literal `\n` must follow. -/
def matchM3 (s : Str) : Option Nat :=
  if marker3Pre.isPrefixOf s then
    let rest := s.drop marker3Pre.length
    let run := rest.takeWhile (fun c => !isJsNlChar c)
    match rest.drop run.length with
    | '\n' :: _ => some (marker3Pre.length + run.length + 1)
    | _ => none
  else none

/-- One `content.replace(/^pat\n/gm, "")` pass: scan left to right,
attempt the matcher at every line-start position (start of string, or
just after a line terminator), drop each non-overlapping match.  Every
matcher consumes at least one character and ends just after a `\n`, so
the position after a removal is again a line start. -/
def passRemove (m : Str → Option Nat) : Bool → Str → Str
  | _, [] => []
  | atLS, c :: rest =>
    if atLS then
      match m (c :: rest) with
      | some k => passRemove m true (rest.drop (k - 1))
      | none => c :: passRemove m (isJsNlChar c) rest
    else c :: passRemove m (isJsNlChar c) rest
termination_by _ s => s.length
decreasing_by
  all_goals simp [List.length_drop]
  omega

/-- `stripConflictMarkers(content)`: the three replacement passes in
source order. -/
def stripConflictMarkers (content : Str) : Str :=
  passRemove matchM3 true (passRemove matchM2 true (passRemove matchM1 true content))

/-- The conflict-marked content `git merge` leaves for a conflicting
file: the local version's lines and the remote version's lines between
the three delimiter lines (each line newline-terminated). -/
def conflictContent (ours theirs : List Str) (lbl : Str) : Str :=
  joinLinesNl ([marker1] ++ ours ++ [marker2] ++ theirs ++ [marker3Pre ++ lbl])

/-- A line free of JS line terminators (a genuine single line). -/
def cleanLine (l : Str) : Bool := l.all (fun c => !isJsNlChar c)

/-- A line the stripping passes would remove: one of the three marker
patterns. -/
def isMarkerLine (l : Str) : Bool :=
  l = marker1 || l = marker2 || marker3Pre.isPrefixOf l

/-! ## Spec-side shape for pointer parsing (refinement comparison) -/

/-- Modelled from the spec's words, for comparison with `parsePointer`:
the "exact three-line structure" of the pointer-record interface — a
version line, then the `oid sha256:<64 lowercase hex>` line, then the
`size <decimal>` line, in that order, nothing else. -/
def specExactPointerShape (s : Str) : Bool :=
  match splitOnNl s with
  | [v, o, z, e] =>
    v = versionToken && (oidLine? o).isSome && (sizeLine? z).isSome && e = ([] : Str)
  | _ => false

/-- A 64-character hash made of `a`s, for concrete instances. -/
def oidA : Str := List.replicate 64 'a'

/-- A reordered pointer record: version line, then the size line, then
the oid line. -/
def reorderedPointer : Str :=
  joinLinesNl [versionToken, sizePre ++ toDec 5, oidPre ++ oidA]

/-! # Supporting lemmas -/

theorem splitOnNl_line_cons (l : Str) (hl : '\n' ∉ l) (s : Str) :
    splitOnNl (l ++ '\n' :: s) = l :: splitOnNl s := by
  induction l with
  | nil => simp [splitOnNl]
  | cons c l ih =>
    have hc : c ≠ '\n' := fun h => hl (h ▸ List.mem_cons_self c l)
    have hl' : '\n' ∉ l := fun h => hl (List.mem_cons_of_mem c h)
    simp only [List.cons_append, splitOnNl, if_neg hc, List.append_eq]
    rw [ih hl']

theorem splitOnNl_joinLinesNl (ls : List Str) (h : ∀ l ∈ ls, '\n' ∉ l) :
    splitOnNl (joinLinesNl ls) = ls ++ [[]] := by
  induction ls with
  | nil => simp [joinLinesNl, splitOnNl]
  | cons l ls ih =>
    have : joinLinesNl (l :: ls) = l ++ '\n' :: joinLinesNl ls := by
      simp [joinLinesNl]
    rw [this, splitOnNl_line_cons l (h l (List.mem_cons_self l ls)),
      ih (fun x hx => h x (List.mem_cons_of_mem l hx))]
    rfl

theorem joinLinesNl_cons (l : Str) (ls : List Str) :
    joinLinesNl (l :: ls) = l ++ '\n' :: joinLinesNl ls := by
  simp [joinLinesNl]

theorem splitLinesJs_term_cons (l : Str) (hl : cleanLine l = true)
    {c : Char} (hc : isJsNlChar c = true) (s : Str) :
    splitLinesJs (l ++ c :: s) = l :: splitLinesJs s := by
  induction l with
  | nil => simp [splitLinesJs, hc]
  | cons a l ih =>
    have ha : isJsNlChar a = false := by
      have := List.all_eq_true.mp hl a (List.mem_cons_self a l)
      simpa using this
    have hl' : cleanLine l = true :=
      List.all_eq_true.mpr (fun x hx => List.all_eq_true.mp hl x (List.mem_cons_of_mem a hx))
    simp only [List.cons_append, splitLinesJs, ha, Bool.false_eq_true, if_false,
      List.append_eq]
    rw [ih hl']

theorem splitLinesJs_joinLinesNl (ls : List Str) (h : ∀ l ∈ ls, cleanLine l = true) :
    splitLinesJs (joinLinesNl ls) = ls ++ [[]] := by
  induction ls with
  | nil => simp [joinLinesNl, splitLinesJs]
  | cons l ls ih =>
    rw [joinLinesNl_cons,
      splitLinesJs_term_cons l (h l (List.mem_cons_self l ls)) (by decide),
      ih (fun x hx => h x (List.mem_cons_of_mem l hx))]
    rfl

theorem isDigit_digitChar10 (d : Nat) : (digitChar10 d).isDigit = true := by
  unfold digitChar10
  split <;> decide

theorem digitVal_digitChar10 (d : Nat) (h : d < 10) :
    digitVal (digitChar10 d) = d := by
  interval_cases d <;> decide

theorem toDecAux_all_digit : ∀ fuel n, ∀ c ∈ toDecAux fuel n, c.isDigit = true := by
  intro fuel
  induction fuel with
  | zero => intro n c hc; simp [toDecAux] at hc
  | succ fuel ih =>
    intro n c hc
    rw [toDecAux] at hc
    split at hc
    · simp only [List.mem_singleton] at hc
      exact hc ▸ isDigit_digitChar10 n
    · rcases List.mem_append.mp hc with h1 | h2
      · exact ih (n / 10) c h1
      · simp only [List.mem_singleton] at h2
        exact h2 ▸ isDigit_digitChar10 (n % 10)

theorem toDec_all_digit (n : Nat) : ∀ c ∈ toDec n, c.isDigit = true :=
  toDecAux_all_digit (n + 1) n

theorem toDec_ne_nil (n : Nat) : toDec n ≠ [] := by
  rw [toDec, toDecAux]
  split
  · simp
  · simp

theorem decVal_append_singleton (s : Str) (c : Char) :
    decVal (s ++ [c]) = 10 * decVal s + digitVal c := by
  simp [decVal, List.foldl_append]

theorem decVal_toDecAux : ∀ fuel n, n < fuel → decVal (toDecAux fuel n) = n := by
  intro fuel
  induction fuel with
  | zero => intro n h; omega
  | succ fuel ih =>
    intro n h
    rw [toDecAux]
    split
    · next h10 =>
      simp only [decVal, List.foldl_cons, List.foldl_nil]
      rw [digitVal_digitChar10 n h10]
      omega
    · next h10 =>
      have hdiv : n / 10 < fuel := by
        have h2 : n / 10 < n := Nat.div_lt_self (by omega) (by omega)
        omega
      rw [decVal_append_singleton, ih (n / 10) hdiv,
        digitVal_digitChar10 (n % 10) (Nat.mod_lt n (by omega))]
      omega

theorem decVal_toDec (n : Nat) : decVal (toDec n) = n :=
  decVal_toDecAux (n + 1) n (Nat.lt_succ_self n)

theorem ne_nl_of_isDigit {c : Char} (h : c.isDigit = true) : c ≠ '\n' := by
  intro hc
  subst hc
  simp [Char.isDigit] at h

theorem noNl_toDec (n : Nat) : '\n' ∉ toDec n := by
  intro h
  exact ne_nl_of_isDigit (toDec_all_digit n '\n' h) rfl

theorem ne_nl_of_isLowerHex {c : Char} (h : isLowerHex c = true) : c ≠ '\n' := by
  intro hc
  subst hc
  simp [isLowerHex] at h

theorem notJsNl_of_isDigit {c : Char} (h : c.isDigit = true) : isJsNlChar c = false := by
  have h1 : c ≠ '\n' := by intro hc; subst hc; exact absurd h (by decide)
  have h2 : c ≠ '\r' := by intro hc; subst hc; exact absurd h (by decide)
  have h3 : c ≠ Char.ofNat 0x2028 := by intro hc; subst hc; exact absurd h (by decide)
  have h4 : c ≠ Char.ofNat 0x2029 := by intro hc; subst hc; exact absurd h (by decide)
  simp [isJsNlChar, h1, h2, h3, h4]

theorem notJsNl_of_isLowerHex {c : Char} (h : isLowerHex c = true) :
    isJsNlChar c = false := by
  have h1 : c ≠ '\n' := by intro hc; subst hc; exact absurd h (by decide)
  have h2 : c ≠ '\r' := by intro hc; subst hc; exact absurd h (by decide)
  have h3 : c ≠ Char.ofNat 0x2028 := by intro hc; subst hc; exact absurd h (by decide)
  have h4 : c ≠ Char.ofNat 0x2029 := by intro hc; subst hc; exact absurd h (by decide)
  simp [isJsNlChar, h1, h2, h3, h4]

theorem cleanLine_oidLineOf (oid : Str) (hall : ∀ c ∈ oid, isLowerHex c = true) :
    cleanLine (oidPre ++ oid) = true := by
  simp only [cleanLine, List.all_append, Bool.and_eq_true]
  refine ⟨by decide, List.all_eq_true.mpr (fun c hc => ?_)⟩
  simp [notJsNl_of_isLowerHex (hall c hc)]

theorem cleanLine_sizeLineOf (n : Nat) : cleanLine (sizePre ++ toDec n) = true := by
  simp only [cleanLine, List.all_append, Bool.and_eq_true]
  refine ⟨by decide, List.all_eq_true.mpr (fun c hc => ?_)⟩
  simp [notJsNl_of_isDigit (toDec_all_digit n c hc)]

theorem self_isPrefixOf_append (xs ys : Str) : xs.isPrefixOf (xs ++ ys) = true := by
  simp [List.isPrefixOf_iff_prefix]

theorem isPrefixOf_head_ne {a b : Char} (as bs : Str) (h : a ≠ b) :
    (a :: as).isPrefixOf (b :: bs) = false := by
  simp [List.isPrefixOf_cons₂, h]

theorem oidLine_self (oid : Str) (h : isHex64 oid = true) :
    oidLine? (oidPre ++ oid) = some oid := by
  simp only [isHex64, Bool.and_eq_true, decide_eq_true_eq, List.all_eq_true] at h
  simp [oidLine?, self_isPrefixOf_append, List.drop_left, isHex64, List.all_eq_true, h.1]
  exact h.2

theorem sizeLine_oidPre_append (oid : Str) : sizeLine? (oidPre ++ oid) = none := by
  have h : sizePre.isPrefixOf (oidPre ++ oid) = false := by
    rw [show sizePre = 's' :: "ize ".toList from rfl,
      show oidPre = 'o' :: "id sha256:".toList from rfl, List.cons_append]
    exact isPrefixOf_head_ne _ _ (by decide)
  simp [sizeLine?, h]

theorem sizeLine_self (n : Nat) : sizeLine? (sizePre ++ toDec n) = some n := by
  have hne : (toDec n).isEmpty = false := by
    cases h : toDec n with
    | nil => exact absurd h (toDec_ne_nil n)
    | cons a l => rfl
  have hall : (toDec n).all Char.isDigit = true :=
    List.all_eq_true.mpr (fun c hc => toDec_all_digit n c hc)
  simp [sizeLine?, self_isPrefixOf_append, List.drop_left, hne, hall, decVal_toDec]

theorem formatPointer_eq_join (oid : Str) (n : Nat) :
    formatPointer oid n = joinLinesNl [versionToken, oidPre ++ oid, sizePre ++ toDec n] := by
  simp [formatPointer, joinLinesNl]

theorem splitLinesJs_formatPointer (oid : Str) (n : Nat)
    (hall : ∀ c ∈ oid, isLowerHex c = true) :
    splitLinesJs (formatPointer oid n) =
      [versionToken, oidPre ++ oid, sizePre ++ toDec n, []] := by
  have hcl : ∀ l ∈ [versionToken, oidPre ++ oid, sizePre ++ toDec n],
      cleanLine l = true := by
    intro l hl
    simp only [List.mem_cons, List.not_mem_nil, or_false] at hl
    rcases hl with h1 | h2 | h3
    · subst h1; decide
    · subst h2; exact cleanLine_oidLineOf oid hall
    · subst h3; exact cleanLine_sizeLineOf n
  rw [formatPointer_eq_join, splitLinesJs_joinLinesNl _ hcl]
  rfl

theorem parsePointer_formatPointer (oid : Str) (n : Nat) (h : isHex64 oid = true) :
    parsePointer (formatPointer oid n) = some ⟨oid, n⟩ := by
  have hall : ∀ c ∈ oid, isLowerHex c = true := by
    simp only [isHex64, Bool.and_eq_true, decide_eq_true_eq, List.all_eq_true] at h
    exact h.2
  have hpre : versionToken.isPrefixOf (formatPointer oid n) = true := by
    rw [formatPointer_eq_join, joinLinesNl_cons]
    exact self_isPrefixOf_append _ _
  rw [parsePointer, if_pos hpre, splitLinesJs_formatPointer oid n hall]
  simp [List.findSome?_cons, oidLine_self oid h, sizeLine_self, sizeLine_oidPre_append,
    show oidLine? versionToken = none by decide,
    show sizeLine? versionToken = none by decide]

theorem getStore_put_same (st : Store) (k v : Str) :
    getStore (putStore st k v) k = some v := by
  simp [getStore, putStore, alookup]

theorem getStore_put_ne (st : Store) {k k' : Str} (v : Str) (h : k ≠ k') :
    getStore (putStore st k v) k' = getStore st k' := by
  simp [getStore, putStore, alookup, h]

theorem getStore_del_ne (st : Store) {k k' : Str} (h : k ≠ k') :
    getStore (delStore st k) k' = getStore st k' := by
  induction st with
  | nil => rfl
  | cons p st ih =>
    simp only [delStore, List.filter_cons] at ih ⊢
    by_cases hp : p.1 = k
    · rw [if_neg (by simp [hp])]
      rw [ih]
      have hp' : p.1 ≠ k' := by rw [hp]; exact h
      simp [getStore, alookup, hp']
    · rw [if_pos (by simp [hp])]
      by_cases hk' : p.1 = k'
      · simp [getStore, alookup, hk']
      · simp only [getStore, alookup, if_neg hk']
        exact ih

theorem copyPartSize_pos : 0 < copyPartSize := by decide

theorem rangesFromFuel_bytes_flatten (size : Nat) :
    ∀ fuel i p, size ≤ i + fuel * copyPartSize →
      ((rangesFromFuel fuel size i p).map rangeBytes).flatten = List.range' i (size - i) := by
  intro fuel
  induction fuel with
  | zero =>
    intro i p hf
    have : size - i = 0 := by omega
    simp [rangesFromFuel, this]
  | succ fuel ih =>
    intro i p hf
    rw [Nat.succ_mul] at hf
    have hP := copyPartSize_pos
    rw [rangesFromFuel]
    by_cases hi : i < size
    · rw [if_pos hi]
      simp only [List.map_cons, List.flatten_cons]
      rw [ih (i + copyPartSize) (p + 1) (by omega)]
      rcases Nat.le_total (i + copyPartSize) size with hc | hc
      · have hm : min (i + copyPartSize - 1) (size - 1) + 1 - i = copyPartSize := by omega
        rw [show rangeBytes (p, i, min (i + copyPartSize - 1) (size - 1)) =
            List.range' i copyPartSize by simp [rangeBytes, hm]]
        rw [show size - (i + copyPartSize) = size - i - copyPartSize by omega]
        rw [List.range'_append_1 i copyPartSize (size - i - copyPartSize)]
        congr 1
        omega
      · have hm : min (i + copyPartSize - 1) (size - 1) + 1 - i = size - i := by omega
        have hz : size - (i + copyPartSize) = 0 := by omega
        rw [hz]
        simp [rangeBytes, hm]
    · rw [if_neg hi]
      have : size - i = 0 := by omega
      simp [this]

theorem multipartRanges_bytes_flatten (size : Nat) :
    ((multipartRanges size).map rangeBytes).flatten = List.range size := by
  have hP := copyPartSize_pos
  have hdm := Nat.div_add_mod size copyPartSize
  have hmlt : size % copyPartSize < copyPartSize := Nat.mod_lt _ hP
  have hf : size ≤ 0 + (size / copyPartSize + 1) * copyPartSize := by
    have h2 : (size / copyPartSize + 1) * copyPartSize =
        copyPartSize * (size / copyPartSize) + copyPartSize := by
      rw [Nat.succ_mul, Nat.mul_comm]
    omega
  rw [multipartRanges, rangesFromFuel_bytes_flatten size _ 0 1 hf]
  simp [List.range_eq_range']

theorem rangesFromFuel_partNums (size : Nat) :
    ∀ fuel i p,
      (rangesFromFuel fuel size i p).map (fun r => r.1) =
        List.range' p (rangesFromFuel fuel size i p).length := by
  intro fuel
  induction fuel with
  | zero =>
    intro i p
    simp [rangesFromFuel]
  | succ fuel ih =>
    intro i p
    rw [rangesFromFuel]
    by_cases hi : i < size
    · rw [if_pos hi]
      simp only [List.map_cons, List.length_cons]
      rw [ih (i + copyPartSize) (p + 1)]
      rw [List.range'_succ]
    · rw [if_neg hi]
      simp

theorem multipartRanges_partNums (size : Nat) :
    (multipartRanges size).map (fun r => r.1) =
      List.range' 1 (multipartRanges size).length := by
  rw [multipartRanges, rangesFromFuel_partNums size _ 0 1]

theorem filterMap_etag_snd (etagOf : Nat → Option Str)
    (hall : ∀ q, (etagOf q).isSome = true) :
    ∀ l : List (Nat × Nat × Nat),
      (l.filterMap (fun r => (etagOf r.1).map (fun e => (e, r.1)))).map Prod.snd =
        l.map (fun r => r.1) := by
  intro l
  induction l with
  | nil => rfl
  | cons r l ih =>
    rcases Option.isSome_iff_exists.mp (hall r.1) with ⟨e, he⟩
    simp [List.filterMap_cons, he, ih]

theorem paginateM_cons_some {α : Type} (p : PageResp α) (rest : List (PageResp α))
    (t : Str) (ht : p.next = some t) :
    paginateM (p :: rest) = p.items.getD [] ++ paginateM rest := by
  rw [paginateM, ht]

theorem paginateM_cons_none {α : Type} (p : PageResp α) (rest : List (PageResp α))
    (ht : p.next = none) :
    paginateM (p :: rest) = p.items.getD [] ++ [] := by
  rw [paginateM, ht]

theorem paginateM_chain {α : Type} :
    ∀ pages : List (PageResp α), chainWF pages = true →
      paginateM pages = (pages.map (fun p => p.items.getD [])).flatten := by
  intro pages
  induction pages with
  | nil => intro h; simp [chainWF] at h
  | cons p rest ih =>
    intro h
    cases rest with
    | nil =>
      simp only [chainWF, Option.isNone_iff_eq_none] at h
      rw [paginateM_cons_none p [] h]
      simp [paginateM]
    | cons q rest' =>
      simp only [chainWF, Bool.and_eq_true, Option.isSome_iff_exists] at h
      rcases h.1 with ⟨t, ht⟩
      rw [paginateM_cons_some p _ t ht, ih h.2]
      simp

theorem passRemove_nil (m : Str → Option Nat) (atLS : Bool) :
    passRemove m atLS [] = [] := by
  rw [passRemove]

theorem passRemove_cons_false (m : Str → Option Nat) (c : Char) (rest : Str) :
    passRemove m false (c :: rest) = c :: passRemove m (isJsNlChar c) rest := by
  rw [passRemove]
  simp

theorem passRemove_cons_true_none (m : Str → Option Nat) (c : Char) (rest : Str)
    (h : m (c :: rest) = none) :
    passRemove m true (c :: rest) = c :: passRemove m (isJsNlChar c) rest := by
  rw [passRemove]
  simp [h]

theorem passRemove_cons_true_some (m : Str → Option Nat) (c : Char) (rest : Str)
    (k : Nat) (h : m (c :: rest) = some k) :
    passRemove m true (c :: rest) = passRemove m true (rest.drop (k - 1)) := by
  rw [passRemove]
  simp [h]

theorem cleanLine_noNl {l : Str} (h : cleanLine l = true) : '\n' ∉ l := by
  intro hm
  have := List.all_eq_true.mp h _ hm
  simp [isJsNlChar] at this

theorem passRemove_midline (m : Str → Option Nat) (l : Str)
    (hl : cleanLine l = true) (t : Str) :
    passRemove m false (l ++ '\n' :: t) = l ++ '\n' :: passRemove m true t := by
  induction l with
  | nil =>
    rw [List.nil_append, passRemove_cons_false]
    norm_num [isJsNlChar]
  | cons c l ih =>
    have hc : isJsNlChar c = false := by
      have := List.all_eq_true.mp hl c (List.mem_cons_self c l)
      simpa using this
    have hl' : cleanLine l = true := by
      refine List.all_eq_true.mpr (fun x hx => ?_)
      exact List.all_eq_true.mp hl x (List.mem_cons_of_mem c hx)
    rw [List.cons_append, passRemove_cons_false, hc, ih hl']
    simp

theorem passRemove_line_nomatch (m : Str → Option Nat) (l : Str)
    (hl : cleanLine l = true) (t : Str) (hm : m (l ++ '\n' :: t) = none) :
    passRemove m true (l ++ '\n' :: t) = l ++ '\n' :: passRemove m true t := by
  cases l with
  | nil =>
    rw [List.nil_append] at hm ⊢
    rw [passRemove_cons_true_none m _ _ hm]
    norm_num [isJsNlChar]
  | cons c l =>
    rw [List.cons_append] at hm ⊢
    rw [passRemove_cons_true_none m _ _ hm]
    have hc : isJsNlChar c = false := by
      have := List.all_eq_true.mp hl c (List.mem_cons_self c l)
      simpa using this
    have hl' : cleanLine l = true := by
      refine List.all_eq_true.mpr (fun x hx => ?_)
      exact List.all_eq_true.mp hl x (List.mem_cons_of_mem c hx)
    rw [hc, passRemove_midline m l hl' t]
    simp

theorem passRemove_line_match (m : Str → Option Nat) (l : Str)
    (hl : cleanLine l = true) (t : Str)
    (hm : m (l ++ '\n' :: t) = some (l.length + 1)) :
    passRemove m true (l ++ '\n' :: t) = passRemove m true t := by
  cases l with
  | nil =>
    rw [List.nil_append] at hm ⊢
    rw [passRemove_cons_true_some m _ _ _ hm]
    simp
  | cons c l =>
    rw [List.cons_append] at hm ⊢
    rw [passRemove_cons_true_some m _ _ _ hm]
    congr 1
    have h2 : l ++ '\n' :: t = (l ++ ['\n']) ++ t := by simp
    rw [h2, @List.drop_left' _ (l ++ ['\n']) t _ (by simp)]

theorem cleanLine_head {c : Char} {l : Str} (h : cleanLine (c :: l) = true) :
    isJsNlChar c = false := by
  have := List.all_eq_true.mp h c (List.mem_cons_self c l)
  simpa using this

theorem cleanLine_tail {c : Char} {l : Str} (h : cleanLine (c :: l) = true) :
    cleanLine l = true :=
  List.all_eq_true.mpr (fun x hx => List.all_eq_true.mp h x (List.mem_cons_of_mem c hx))

theorem ne_nl_of_notJsNl {c : Char} (h : isJsNlChar c = false) : c ≠ '\n' := by
  intro hc
  subst hc
  simp [isJsNlChar] at h

theorem isPrefixOf_line (q : Str) (hq : cleanLine q = true) :
    ∀ (l : Str), cleanLine l = true → ∀ t : Str,
      (q ++ ['\n']).isPrefixOf (l ++ '\n' :: t) = decide (q = l) := by
  induction q with
  | nil =>
    intro l hl t
    cases l with
    | nil => simp [List.isPrefixOf]
    | cons c l =>
      have hc : c ≠ '\n' := ne_nl_of_notJsNl (cleanLine_head hl)
      have hc' : ('\n' == c) = false := by
        simp [hc.symm]
      simp [List.isPrefixOf, hc']
  | cons a q ih =>
    intro l hl t
    cases l with
    | nil =>
      have ha : a ≠ '\n' := ne_nl_of_notJsNl (cleanLine_head hq)
      simp [List.isPrefixOf, ha]
    | cons c l =>
      simp only [List.cons_append, List.isPrefixOf, List.append_eq]
      rw [ih (cleanLine_tail hq) l (cleanLine_tail hl) t]
      by_cases hac : a = c
      · subst hac
        by_cases hql : q = l
        · subst hql; simp
        · simp [hql]
      · simp [hac]

theorem matchM1_line (l : Str) (hl : cleanLine l = true) (t : Str) :
    matchM1 (l ++ '\n' :: t) = if l = marker1 then some (l.length + 1) else none := by
  unfold matchM1
  rw [isPrefixOf_line marker1 (by decide) l hl t]
  by_cases h : l = marker1
  · subst h; simp
  · have h' : marker1 ≠ l := fun hh => h hh.symm
    simp [h, h']

theorem matchM2_line (l : Str) (hl : cleanLine l = true) (t : Str) :
    matchM2 (l ++ '\n' :: t) = if l = marker2 then some (l.length + 1) else none := by
  unfold matchM2
  rw [isPrefixOf_line marker2 (by decide) l hl t]
  by_cases h : l = marker2
  · subst h; simp
  · have h' : marker2 ≠ l := fun hh => h hh.symm
    simp [h, h']

theorem isPrefixOf_stopline (q : Str) (hq : cleanLine q = true) :
    ∀ (l : Str), ∀ t : Str,
      q.isPrefixOf (l ++ '\n' :: t) = q.isPrefixOf l := by
  induction q with
  | nil => intro l t; simp [List.isPrefixOf]
  | cons a q ih =>
    intro l t
    cases l with
    | nil =>
      have ha : a ≠ '\n' := ne_nl_of_notJsNl (cleanLine_head hq)
      simp [List.isPrefixOf, ha]
    | cons c l =>
      simp only [List.cons_append, List.isPrefixOf, List.append_eq]
      rw [ih (cleanLine_tail hq) l t]

theorem takeWhile_all_append (p : Char → Bool) (l2 : Str)
    (h : ∀ c ∈ l2, p c = true) (c0 : Char) (hc0 : p c0 = false) (t : Str) :
    (l2 ++ c0 :: t).takeWhile p = l2 := by
  induction l2 with
  | nil => simp [List.takeWhile_cons, hc0]
  | cons c l2 ih =>
    have hc : p c = true := h c (List.mem_cons_self c l2)
    simp [List.takeWhile_cons, hc, ih (fun x hx => h x (List.mem_cons_of_mem c hx))]

theorem matchM3_line (l : Str) (hl : cleanLine l = true) (t : Str) :
    matchM3 (l ++ '\n' :: t) = if marker3Pre.isPrefixOf l then some (l.length + 1) else none := by
  by_cases hp : marker3Pre.isPrefixOf l = true
  · rcases List.isPrefixOf_iff_prefix.mp hp with ⟨l2, hl2⟩
    subst hl2
    have hl2c : cleanLine l2 = true := by
      refine List.all_eq_true.mpr (fun x hx => ?_)
      exact List.all_eq_true.mp hl x (List.mem_append_right _ hx)
    unfold matchM3
    rw [List.append_assoc]
    rw [if_pos (self_isPrefixOf_append marker3Pre (l2 ++ '\n' :: t))]
    simp only [List.drop_left]
    rw [takeWhile_all_append _ l2
      (fun c hc => by simp [List.all_eq_true.mp hl2c c hc]) '\n' (by decide) t]
    rw [List.drop_left]
    simp [hp, List.length_append]
  · have hb : marker3Pre.isPrefixOf l = false := Bool.eq_false_iff.mpr hp
    unfold matchM3
    rw [isPrefixOf_stopline marker3Pre (by decide) l t, hb]
    simp

theorem passRemove_joinLines (m : Str → Option Nat) (P : Str → Bool)
    (hmP : ∀ l t, cleanLine l = true →
      m (l ++ '\n' :: t) = if P l then some (l.length + 1) else none) :
    ∀ ls : List Str, (∀ l ∈ ls, cleanLine l = true) →
      passRemove m true (joinLinesNl ls) = joinLinesNl (ls.filter (fun l => !P l)) := by
  intro ls
  induction ls with
  | nil => intro h; simp [joinLinesNl, passRemove_nil]
  | cons l ls ih =>
    intro h
    have hl : cleanLine l = true := h l (List.mem_cons_self l ls)
    have hls : ∀ x ∈ ls, cleanLine x = true :=
      fun x hx => h x (List.mem_cons_of_mem l hx)
    rw [joinLinesNl_cons]
    by_cases hP : P l = true
    · rw [passRemove_line_match m l hl _ (by rw [hmP l _ hl, if_pos hP]), ih hls]
      simp [List.filter_cons, hP]
    · have hP' : P l = false := Bool.eq_false_iff.mpr hP
      rw [passRemove_line_nomatch m l hl _ (by rw [hmP l _ hl, hP']; simp), ih hls]
      rw [List.filter_cons]
      simp [hP', joinLinesNl_cons]

theorem not_marker_parts {l : Str} (h : isMarkerLine l = false) :
    l ≠ marker1 ∧ l ≠ marker2 ∧ marker3Pre.isPrefixOf l = false := by
  have h' : (¬l = marker1 ∧ ¬l = marker2) ∧ marker3Pre.isPrefixOf l = false := by
    simpa [isMarkerLine] using h
  exact ⟨h'.1.1, h'.1.2, h'.2⟩

theorem m3line_ne_marker1 (lbl : Str) : marker3Pre ++ lbl ≠ marker1 := by
  intro h
  have h0 := congrArg List.head? h
  rw [show marker3Pre = '>' :: ">>>>>> ".toList from rfl,
    show marker1 = '<' :: "<<<<<< HEAD".toList from rfl] at h0
  simp at h0

theorem m3line_ne_marker2 (lbl : Str) : marker3Pre ++ lbl ≠ marker2 := by
  intro h
  have h0 := congrArg List.head? h
  rw [show marker3Pre = '>' :: ">>>>>> ".toList from rfl,
    show marker2 = '=' :: "======".toList from rfl] at h0
  simp at h0

theorem stripConflictMarkers_conflictContent (A B : List Str) (lbl : Str)
    (hA : ∀ l ∈ A, cleanLine l = true ∧ isMarkerLine l = false)
    (hB : ∀ l ∈ B, cleanLine l = true ∧ isMarkerLine l = false)
    (hlbl : cleanLine lbl = true) :
    stripConflictMarkers (conflictContent A B lbl) = joinLinesNl (A ++ B) := by
  have hm3c : cleanLine (marker3Pre ++ lbl) = true := by
    simp only [cleanLine, List.all_append, Bool.and_eq_true]
    exact ⟨by decide, hlbl⟩
  have hm1 : ∀ l t, cleanLine l = true →
      matchM1 (l ++ '\n' :: t) =
        if decide (l = marker1) then some (l.length + 1) else none := by
    intro l t hc
    rw [matchM1_line l hc t]
    by_cases h : l = marker1 <;> simp [h]
  have hm2 : ∀ l t, cleanLine l = true →
      matchM2 (l ++ '\n' :: t) =
        if decide (l = marker2) then some (l.length + 1) else none := by
    intro l t hc
    rw [matchM2_line l hc t]
    by_cases h : l = marker2 <;> simp [h]
  have hm3 : ∀ l t, cleanLine l = true →
      matchM3 (l ++ '\n' :: t) =
        if marker3Pre.isPrefixOf l then some (l.length + 1) else none := by
    intro l t hc
    exact matchM3_line l hc t
  have hcleanL : ∀ l ∈ [marker1] ++ A ++ [marker2] ++ B ++ [marker3Pre ++ lbl],
      cleanLine l = true := by
    intro l hl
    simp only [List.mem_append, List.mem_singleton] at hl
    rcases hl with ((((h | h) | h) | h) | h)
    · simp only [h]; decide
    · exact (hA l h).1
    · simp only [h]; decide
    · exact (hB l h).1
    · rw [h]; exact hm3c
  have h1 : ([marker1] ++ A ++ [marker2] ++ B ++ [marker3Pre ++ lbl]).filter
      (fun l => !decide (l = marker1)) = A ++ [marker2] ++ B ++ [marker3Pre ++ lbl] := by
    have fA : A.filter (fun l => !decide (l = marker1)) = A :=
      List.filter_eq_self.mpr (fun l hl => by simp [(not_marker_parts (hA l hl).2).1])
    have fB : B.filter (fun l => !decide (l = marker1)) = B :=
      List.filter_eq_self.mpr (fun l hl => by simp [(not_marker_parts (hB l hl).2).1])
    simp [List.filter_append, fA, fB, List.filter_cons, m3line_ne_marker1 lbl,
      show marker2 ≠ marker1 by decide]
  have h2 : (A ++ [marker2] ++ B ++ [marker3Pre ++ lbl]).filter
      (fun l => !decide (l = marker2)) = A ++ B ++ [marker3Pre ++ lbl] := by
    have fA : A.filter (fun l => !decide (l = marker2)) = A :=
      List.filter_eq_self.mpr (fun l hl => by simp [(not_marker_parts (hA l hl).2).2.1])
    have fB : B.filter (fun l => !decide (l = marker2)) = B :=
      List.filter_eq_self.mpr (fun l hl => by simp [(not_marker_parts (hB l hl).2).2.1])
    simp [List.filter_append, fA, fB, List.filter_cons, m3line_ne_marker2 lbl]
  have h3 : (A ++ B ++ [marker3Pre ++ lbl]).filter
      (fun l => !marker3Pre.isPrefixOf l) = A ++ B := by
    have fA : A.filter (fun l => !marker3Pre.isPrefixOf l) = A :=
      List.filter_eq_self.mpr (fun l hl => by simp [(not_marker_parts (hA l hl).2).2.2])
    have fB : B.filter (fun l => !marker3Pre.isPrefixOf l) = B :=
      List.filter_eq_self.mpr (fun l hl => by simp [(not_marker_parts (hB l hl).2).2.2])
    simp [List.filter_append, fA, fB, List.filter_cons,
      self_isPrefixOf_append marker3Pre lbl]
  have hcleanL1 : ∀ l ∈ A ++ [marker2] ++ B ++ [marker3Pre ++ lbl], cleanLine l = true := by
    intro l hl
    apply hcleanL
    simp only [List.mem_append, List.mem_singleton] at hl ⊢
    tauto
  have hcleanL2 : ∀ l ∈ A ++ B ++ [marker3Pre ++ lbl], cleanLine l = true := by
    intro l hl
    apply hcleanL
    simp only [List.mem_append, List.mem_singleton] at hl ⊢
    tauto
  unfold stripConflictMarkers conflictContent
  rw [passRemove_joinLines matchM1 (fun l => decide (l = marker1)) hm1 _ hcleanL, h1]
  rw [passRemove_joinLines matchM2 (fun l => decide (l = marker2)) hm2 _ hcleanL1, h2]
  rw [passRemove_joinLines matchM3 (fun l => marker3Pre.isPrefixOf l) hm3 _ hcleanL2, h3]

/-! # Claim theorems -/

/-- C1: round-trip of the offload engine — for every byte content `C`
stored in a local file, `clean` (which uploads `C` to the
content-addressed key and overwrites the file with a pointer record)
followed by `smudge` on the same file restores the file's content to
exactly `C`.  The hash is any function producing a 64-char lowercase-hex
digest (as sha256 does), and the temporary upload key differs from the
content-addressed key (as `lfs/tmp/...` differs from `lfs/<64 hex>`). -/
theorem c1_clean_smudge_roundtrip (hash : Str → Str) (tempKey C : Str) (st : Store)
    (hhex : isHex64 (hash C) = true) (htmp : tempKey ≠ lfsKey (hash C)) :
    cleanThenSmudge hash tempKey C st = some C := by
  have hoid := parsePointer_formatPointer (hash C) C.length hhex
  unfold cleanThenSmudge clean copyStore
  simp only [getStore_put_same, Option.map_some', Option.some_bind]
  unfold smudge
  rw [hoid]
  simp only []
  rw [getStore_del_ne _ htmp, getStore_put_same]

/-- Witness for C1 at a concrete content, hash and store. -/
theorem c1_clean_smudge_roundtrip_witness :
    isHex64 oidA = true ∧
    cleanThenSmudge (fun _ => oidA) ("lfs/tmp/t".toList) ("hi".toList) [] =
      some ("hi".toList) :=
  ⟨by decide,
   c1_clean_smudge_roundtrip (fun _ => oidA) ("lfs/tmp/t".toList) ("hi".toList) []
     (by decide) (by decide)⟩

/-- C2 counterexample: `parsePointer` accepts a record whose oid and size
lines are reordered — a string that is *not* the exact three-line
structure (version line, oid line, size line in that order) on which the
claim requires an absent result. -/
theorem c2_pointer_exactness_counterexample :
    specExactPointerShape reorderedPointer = false ∧
    parsePointer reorderedPointer = some ⟨oidA, 5⟩ := by
  constructor
  · decide
  · decide

/-- C2 (amended): `parsePointer` returns absent for every string that
does not start with the version token, and for every string none of
whose lines (lines in the ECMAScript multiline-regex sense, delimited by
LF, CR, LS or PS) matches the oid pattern, or none the size pattern.
The three-line order is *not* enforced: every string starting with the
version token that contains, as full lines anywhere and in any order, a
line matching the oid pattern and a line matching the size pattern is
accepted, and the returned hash and size are taken from such lines (the
first match of each).  For every well-formed pointer built by
`formatPointer` with a 64-hex hash `H` and size `N` it returns exactly
`{H, N}`. -/
theorem c2_pointer_parsing_amended :
    (∀ s : Str, versionToken.isPrefixOf s = false → parsePointer s = none) ∧
    (∀ s : Str, (∀ l ∈ splitLinesJs s, oidLine? l = none) → parsePointer s = none) ∧
    (∀ s : Str, (∀ l ∈ splitLinesJs s, sizeLine? l = none) → parsePointer s = none) ∧
    (∀ s : Str, versionToken.isPrefixOf s = true →
      (∃ l ∈ splitLinesJs s, (oidLine? l).isSome = true) →
      (∃ l ∈ splitLinesJs s, (sizeLine? l).isSome = true) →
      ∃ oid n, parsePointer s = some ⟨oid, n⟩ ∧
        (∃ l ∈ splitLinesJs s, oidLine? l = some oid) ∧
        (∃ l ∈ splitLinesJs s, sizeLine? l = some n)) ∧
    (∀ (oid : Str) (n : Nat), isHex64 oid = true →
      parsePointer (formatPointer oid n) = some ⟨oid, n⟩) := by
  refine ⟨?_, ?_, ?_, ?_, parsePointer_formatPointer⟩
  · intro s h
    simp [parsePointer, h]
  · intro s h
    unfold parsePointer
    rw [List.findSome?_eq_none_iff.mpr h]
    split <;> rfl
  · intro s h
    unfold parsePointer
    rw [List.findSome?_eq_none_iff.mpr h]
    cases (splitLinesJs s).findSome? oidLine? <;> simp
  · intro s hv h1 h2
    have ho : ∃ oid, (splitLinesJs s).findSome? oidLine? = some oid := by
      cases hfo : (splitLinesJs s).findSome? oidLine? with
      | none =>
        rcases h1 with ⟨l, hl, hsome⟩
        rw [List.findSome?_eq_none_iff.mp hfo l hl] at hsome
        simp at hsome
      | some oid => exact ⟨oid, rfl⟩
    have hs : ∃ n, (splitLinesJs s).findSome? sizeLine? = some n := by
      cases hfs : (splitLinesJs s).findSome? sizeLine? with
      | none =>
        rcases h2 with ⟨l, hl, hsome⟩
        rw [List.findSome?_eq_none_iff.mp hfs l hl] at hsome
        simp at hsome
      | some n => exact ⟨n, rfl⟩
    rcases ho with ⟨oid, ho⟩
    rcases hs with ⟨n, hs⟩
    refine ⟨oid, n, ?_, ?_, ?_⟩
    · unfold parsePointer
      rw [if_pos hv, ho, hs]
    · rcases List.exists_of_findSome?_eq_some ho with ⟨l, hl, hfl⟩
      exact ⟨l, hl, hfl⟩
    · rcases List.exists_of_findSome?_eq_some hs with ⟨l, hl, hfl⟩
      exact ⟨l, hl, hfl⟩

/-- Witness for C2 (amended) at concrete strings: a non-pointer, a
version-prefixed record lacking an oid line, a version-prefixed record
lacking a size line, a CR-separated record with the size line before the
oid line (accepted), and a well-formed pointer. -/
theorem c2_pointer_parsing_amended_witness :
    parsePointer ("hello".toList) = none ∧
    parsePointer ("version https://git-lfs.github.com/spec/v1\nsize 5\n".toList) = none ∧
    parsePointer ("version https://git-lfs.github.com/spec/v1\noid sha256:".toList
      ++ oidA ++ ['\n']) = none ∧
    (∃ oid n,
      parsePointer (("version https://git-lfs.github.com/spec/v1\rsize 5\roid sha256:".toList
        ++ oidA)) = some ⟨oid, n⟩ ∧
      (∃ l ∈ splitLinesJs (("version https://git-lfs.github.com/spec/v1\rsize 5\roid sha256:".toList
        ++ oidA)), oidLine? l = some oid) ∧
      (∃ l ∈ splitLinesJs (("version https://git-lfs.github.com/spec/v1\rsize 5\roid sha256:".toList
        ++ oidA)), sizeLine? l = some n)) ∧
    parsePointer (formatPointer oidA 5) = some ⟨oidA, 5⟩ :=
  ⟨c2_pointer_parsing_amended.1 _ (by decide),
   c2_pointer_parsing_amended.2.1 _ (by decide),
   c2_pointer_parsing_amended.2.2.1 _ (by decide),
   c2_pointer_parsing_amended.2.2.2.1 _ (by decide) (by decide) (by decide),
   c2_pointer_parsing_amended.2.2.2.2 oidA 5 (by decide)⟩

/-- C3: cancelling merge-conflict resolution restores the exact
pre-merge state — after the cancel path runs (merge abort, hard reset to
the pre-merge identifier, re-smudge), the local tip equals the pre-merge
identifier captured before the fetch, and the working tree is that
identifier's checkout with offloaded files re-smudged. -/
theorem c3_cancelMerge_restores (s : RepoState) (store : Store) (pats : Str → Bool)
    (preHead : Str) (t t0 wt : Tree)
    (hm : s.merging = true)
    (hcur : checkoutOf s s.head = some t0)
    (hpre : checkoutOf s preHead = some t)
    (hsm : smudgeTreeM store pats t = some wt) :
    cancelMergeM s store pats preHead true =
      some { commits := s.commits, head := preHead, worktree := wt, merging := false } := by
  unfold cancelMergeM mergeAbortM resetHardM
  unfold checkoutOf at hcur hpre ⊢
  simp [hm, hcur, hpre, hsm]

/-- Witness for C3 at a concrete repository state. -/
theorem c3_cancelMerge_restores_witness :
    cancelMergeM
      ⟨[("c1".toList, [("f".toList, "x".toList)])], "c1".toList, [], true⟩
      [] (fun _ => false) ("c1".toList) true =
      some ⟨[("c1".toList, [("f".toList, "x".toList)])], "c1".toList,
        [("f".toList, "x".toList)], false⟩ :=
  c3_cancelMerge_restores
    ⟨[("c1".toList, [("f".toList, "x".toList)])], "c1".toList, [], true⟩
    [] (fun _ => false) ("c1".toList)
    [("f".toList, "x".toList)] [("f".toList, "x".toList)] [("f".toList, "x".toList)]
    rfl (by decide) (by decide) rfl

/-- C10: the object-store head operation never throws — every underlying
failure, of any kind, becomes the absent result (`none`), so `exists`
always returns a boolean; callers cannot distinguish a missing object
from an unreachable or unauthorized store. -/
theorem c10_head_never_throws (e e2 : S3Err) (now : Nat) (r : HeadResp) :
    headM (Except.error e) now = none ∧
    existsM (Except.error e) now = false ∧
    headM (Except.error e) now = headM (Except.error e2) now ∧
    headM (Except.ok r) now = some ⟨r.contentLength.getD 0, r.lastModified.getD now⟩ ∧
    existsM (Except.ok r) now = true :=
  ⟨rfl, rfl, rfl, rfl, rfl⟩

/-- C4: fast-forward detection — whenever the remote tip `r` exists
(non-null, non-empty), differs from the post-commit local tip, and is an
ancestor of it, `push` proceeds to mirroring the history up and never
invokes the merge sub-protocol (no fetch-and-merge, no conflict
modal). -/
theorem c4_fast_forward_no_merge (e : PushEnv) (r : Str)
    (hconn : e.connected = true) (hprep : e.prepFails = false)
    (hbody : e.bodyFails = false) (hr : e.remoteHead = some r) (hrne : r ≠ [])
    (hne : r ≠ pushNewHead e) (hanc : e.isAncestor r (pushNewHead e) = true) :
    PushA.fetchMerge ∉ (pushModel false e).2 ∧
    PushA.conflictModal ∉ (pushModel false e).2 ∧
    PushA.mirrorUp ∈ (pushModel false e).2 := by
  have hup : ¬(hasChangesM e.status = false ∧ e.remoteHead = some e.localHead) := by
    rintro ⟨h1, h2⟩
    rw [hr] at h2
    apply hne
    rw [Option.some.injEq] at h2
    rw [h2]
    unfold pushNewHead
    rw [h1]
    simp
  unfold pushModel
  rw [if_neg (by simp), if_neg (by simp [hconn]), if_neg (by simp [hprep]),
    if_neg hup, if_neg (by simp [hbody]), hr]
  simp only [if_pos (And.intro hrne hne), if_pos hanc]
  by_cases hch : hasChangesM e.status = true <;> simp [hch]

/-- Witness for C4 at a concrete push environment. -/
theorem c4_fast_forward_no_merge_witness :
    PushA.fetchMerge ∉ (pushModel false
      ⟨true, ⟨[], [], [], []⟩, "a".toList, some ("b".toList), "c".toList,
        fun _ _ => true, false, false, false⟩).2 ∧
    PushA.conflictModal ∉ (pushModel false
      ⟨true, ⟨[], [], [], []⟩, "a".toList, some ("b".toList), "c".toList,
        fun _ _ => true, false, false, false⟩).2 ∧
    PushA.mirrorUp ∈ (pushModel false
      ⟨true, ⟨[], [], [], []⟩, "a".toList, some ("b".toList), "c".toList,
        fun _ _ => true, false, false, false⟩).2 :=
  c4_fast_forward_no_merge
    ⟨true, ⟨[], [], [], []⟩, "a".toList, some ("b".toList), "c".toList,
      fun _ _ => true, false, false, false⟩
    ("b".toList) rfl rfl rfl rfl (by decide) (by decide) rfl

/-- C5: mutual exclusion via the busy flag — Push, Pull, and Restore
check the process-wide `locked` flag at entry, and a call arriving while
the flag is held returns immediately with the state unchanged and no
observable step (a silent no-op, neither queued nor erroring); and on
every exit path of an operation entered with the flag free — including
the failure paths — the flag ends released. -/
theorem c5_busy_flag_exclusion_release (ep : PushEnv) (el : PullEnv) (er : RestoreEnv) :
    (pushModel true ep = (true, []) ∧ pullModel true el = (true, []) ∧
      restoreModel true er = (true, [])) ∧
    ((pushModel false ep).1 = false ∧ (pullModel false el).1 = false ∧
      (restoreModel false er).1 = false) := by
  refine ⟨⟨rfl, rfl, rfl⟩, ?_, ?_, ?_⟩
  · unfold pushModel
    repeat' split
    all_goals simp only []
    all_goals repeat' split
    all_goals rfl
  · unfold pullModel
    repeat' split
    all_goals rfl
  · unfold restoreModel
    repeat' split
    all_goals rfl

/-- C6 counterexample: at a size of exactly 5 GiB — "at the threshold" —
the code compares with strict `>` and issues a single server-side copy,
where the claim requires a multipart copy. -/
theorem c6_copy_threshold_counterexample :
    copyUsesMultipart (5 * 1024 * 1024 * 1024) = false := by
  decide

/-- C6 (amended): for sizes at or below 5 GiB a single server-side copy
is issued; strictly above 5 GiB a multipart copy is performed whose
sequential byte-range part-copies are contiguous, non-overlapping and
fully cover `[0, size)` (their concatenated byte ranges are exactly
`0, ..., size-1` in order), with 1-based consecutive part numbers, and
the completed part list keeps those part numbers in order when every
part-copy response carries an ETag. -/
theorem c6_copy_multipart_amended :
    (∀ size, size ≤ copyThreshold → copyUsesMultipart size = false) ∧
    (∀ size, copyThreshold < size → copyUsesMultipart size = true) ∧
    (∀ size, ((multipartRanges size).map rangeBytes).flatten = List.range size) ∧
    (∀ size, (multipartRanges size).map (fun r => r.1) =
      List.range' 1 (multipartRanges size).length) ∧
    (∀ size (etagOf : Nat → Option Str), (∀ q, (etagOf q).isSome = true) →
      (multipartCompletionParts size etagOf).map Prod.snd =
        (multipartRanges size).map (fun r => r.1)) := by
  refine ⟨?_, ?_, multipartRanges_bytes_flatten, multipartRanges_partNums, ?_⟩
  · intro size h
    simp [copyUsesMultipart]
    omega
  · intro size h
    simp [copyUsesMultipart]
    omega
  · intro size etagOf h
    unfold multipartCompletionParts
    exact filterMap_etag_snd etagOf h (multipartRanges size)

/-- Witness for C6 (amended) at concrete sizes. -/
theorem c6_copy_multipart_amended_witness :
    copyUsesMultipart 1 = false ∧
    copyUsesMultipart (5 * 1024 * 1024 * 1024 + 1) = true ∧
    ((multipartRanges 3).map rangeBytes).flatten = List.range 3 ∧
    (multipartCompletionParts 3 (fun _ => some ['e'])).map Prod.snd =
      (multipartRanges 3).map (fun r => r.1) :=
  ⟨c6_copy_multipart_amended.1 1 (by decide),
   c6_copy_multipart_amended.2.1 _ (by decide),
   c6_copy_multipart_amended.2.2.1 3,
   c6_copy_multipart_amended.2.2.2.2 3 (fun _ => some ['e']) (fun _ => rfl)⟩

/-- C7: keep-both resolution — for every conflicting file whose
conflict-marked content is the local body, the remote body and the three
delimiter lines (bodies made of genuine single lines that are not
themselves marker lines), the applied result is that content with the
three marker lines removed and both bodies retained concatenated in
place, and no conflict-marker line remains in the result. -/
theorem c7_keep_both_strips_markers (A B : List Str) (lbl : Str)
    (hA : ∀ l ∈ A, cleanLine l = true ∧ isMarkerLine l = false)
    (hB : ∀ l ∈ B, cleanLine l = true ∧ isMarkerLine l = false)
    (hlbl : cleanLine lbl = true) :
    stripConflictMarkers (conflictContent A B lbl) = joinLinesNl (A ++ B) ∧
    ∀ l ∈ splitOnNl (stripConflictMarkers (conflictContent A B lbl)),
      isMarkerLine l = false := by
  have h := stripConflictMarkers_conflictContent A B lbl hA hB hlbl
  refine ⟨h, ?_⟩
  rw [h, splitOnNl_joinLinesNl _ ?hnl]
  case hnl =>
    intro l hl
    rcases List.mem_append.mp hl with ha | hb
    · exact cleanLine_noNl (hA l ha).1
    · exact cleanLine_noNl (hB l hb).1
  intro l hl
  rcases List.mem_append.mp hl with h1 | h2
  · rcases List.mem_append.mp h1 with ha | hb
    · exact (hA l ha).2
    · exact (hB l hb).2
  · simp only [List.mem_singleton] at h2
    subst h2
    decide

/-- Witness for C7 at concrete one-line bodies. -/
theorem c7_keep_both_strips_markers_witness :
    stripConflictMarkers (conflictContent [['x']] [['y']] ['b']) =
      joinLinesNl ([['x']] ++ [['y']]) ∧
    ∀ l ∈ splitOnNl (stripConflictMarkers (conflictContent [['x']] [['y']] ['b'])),
      isMarkerLine l = false :=
  c7_keep_both_strips_markers [['x']] [['y']] ['b']
    (by decide) (by decide) (by decide)

/-- C8: push up-to-date short-circuit — whenever the working-tree status
is clean (no staged, modified, untracked or deleted paths) and the local
tip equals the resolved remote tip, `push` reports "up to date" and
stops without committing, merging, or mirroring the history directory
up. -/
theorem c8_push_up_to_date (e : PushEnv) (remote : Store)
    (hconn : e.connected = true) (hprep : e.prepFails = false)
    (hst : e.status.staged = [] ∧ e.status.modified = [] ∧
      e.status.untracked = [] ∧ e.status.deleted = [])
    (hrh : e.remoteHead = getRemoteHeadM remote)
    (heq : getRemoteHeadM remote = some e.localHead) :
    pushModel false e = (false, [PushA.noticeUpToDate]) ∧
    PushA.commit ∉ (pushModel false e).2 ∧
    PushA.fetchMerge ∉ (pushModel false e).2 ∧
    PushA.mirrorUp ∉ (pushModel false e).2 := by
  have hch : hasChangesM e.status = false := by
    rcases hst with ⟨h1, h2, h3, h4⟩
    simp [hasChangesM, h1, h2, h3, h4]
  have hmain : pushModel false e = (false, [PushA.noticeUpToDate]) := by
    unfold pushModel
    rw [if_neg (by simp), if_neg (by simp [hconn]), if_neg (by simp [hprep]),
      if_pos (And.intro hch (hrh.trans heq))]
  refine ⟨hmain, ?_, ?_, ?_⟩ <;> rw [hmain] <;> simp

/-- Witness for C8 at a concrete environment and remote store. -/
theorem c8_push_up_to_date_witness :
    pushModel false
      ⟨true, ⟨[], [], [], []⟩, "abc".toList, some ("abc".toList), "c".toList,
        fun _ _ => false, false, false, false⟩ =
      (false, [PushA.noticeUpToDate]) ∧
    PushA.commit ∉ (pushModel false
      ⟨true, ⟨[], [], [], []⟩, "abc".toList, some ("abc".toList), "c".toList,
        fun _ _ => false, false, false, false⟩).2 ∧
    PushA.fetchMerge ∉ (pushModel false
      ⟨true, ⟨[], [], [], []⟩, "abc".toList, some ("abc".toList), "c".toList,
        fun _ _ => false, false, false, false⟩).2 ∧
    PushA.mirrorUp ∉ (pushModel false
      ⟨true, ⟨[], [], [], []⟩, "abc".toList, some ("abc".toList), "c".toList,
        fun _ _ => false, false, false, false⟩).2 :=
  c8_push_up_to_date
    ⟨true, ⟨[], [], [], []⟩, "abc".toList, some ("abc".toList), "c".toList,
      fun _ _ => false, false, false, false⟩
    [(".git/HEAD".toList, "abc\n".toList)]
    rfl rfl (by decide) (by decide) (by decide)

/-- C9: pagination transparency of `list` — over any well-formed chain
of continuation pages, `list` follows the tokens until exhausted and
returns the objects and common prefixes concatenated in page order,
equal to a hypothetical single-page listing holding the same totals;
callers never observe pagination. -/
theorem c9_list_pagination_transparent {ob pf : Type} (pages : List (ListResp ob pf))
    (h : chainWF (pages.map listPage) = true) :
    listM pages =
      ((pages.map (fun r => r.contents.getD [])).flatten,
       (pages.map (fun r => r.commonPfx.getD [])).flatten) ∧
    listM pages = listM [singlePageOf pages] := by
  have hsingles : ∀ rest : List (ListResp ob pf),
      ((rest.map listPage).map (fun p => p.items.getD [])).flatten =
        rest.map (fun r => (r.contents.getD [], r.commonPfx.getD [])) := by
    intro rest
    induction rest with
    | nil => rfl
    | cons q rest ih =>
      simp only [List.map_cons, List.flatten_cons]
      rw [ih]
      rfl
  have hres : paginateM (pages.map listPage) =
      pages.map (fun r => (r.contents.getD [], r.commonPfx.getD [])) := by
    rw [paginateM_chain (pages.map listPage) h]
    exact hsingles pages
  have h1 : listM pages =
      ((pages.map (fun r => r.contents.getD [])).flatten,
       (pages.map (fun r => r.commonPfx.getD [])).flatten) := by
    simp only [listM]
    rw [hres, List.map_map, List.map_map]
    rfl
  refine ⟨h1, ?_⟩
  rw [h1]
  unfold listM singlePageOf listPage paginateM
  simp

/-- Witness for C9 on a concrete two-page chain. -/
theorem c9_list_pagination_transparent_witness :
    listM [(⟨some [1, 2], some [7], some ("t".toList)⟩ : ListResp Nat Nat),
           ⟨some [3], none, none⟩] = ([1, 2, 3], [7]) ∧
    listM [(⟨some [1, 2], some [7], some ("t".toList)⟩ : ListResp Nat Nat),
           ⟨some [3], none, none⟩] =
      listM [singlePageOf [(⟨some [1, 2], some [7], some ("t".toList)⟩ : ListResp Nat Nat),
                           ⟨some [3], none, none⟩]] :=
  ⟨(c9_list_pagination_transparent
      [(⟨some [1, 2], some [7], some ("t".toList)⟩ : ListResp Nat Nat),
       ⟨some [3], none, none⟩] (by decide)).1.trans (by decide),
   (c9_list_pagination_transparent
      [(⟨some [1, 2], some [7], some ("t".toList)⟩ : ListResp Nat Nat),
       ⟨some [3], none, none⟩] (by decide)).2⟩

end VaultSync
